/-
Verification of the whisper-text steganography codec.

The codec (src/codec.rs) hides a secret string inside a cover text using
four zero-width Unicode scalar values.  We embed it shallowly:

* Rust `&str` / `String` values become `List Char` (a list of Unicode
  scalar values; Lean's `Char` is exactly a Unicode scalar value).
* Rust `str::find` returns the byte offset of the first occurrence of the
  marker; since byte offsets of characters in a string are strictly
  monotone in the character index, comparing the two byte offsets
  (`start < end`) is equivalent to comparing the character indices of the
  first occurrences, and slicing `[start+3 .. end]` (the markers are
  3-byte characters) yields exactly the scalar values strictly between the
  first START and the first END.  We therefore model `find` by the index
  of the first occurrence in the character list.
* `secret.as_bytes()` is the UTF-8 encoding of the string; bytes are
  modelled as `Nat` (all produced values are `< 256`).  `(byte >> k) & 1`
  is `byte / 2 ^ k % 2`, and `(current_byte << 1) | bit` is
  `current_byte * 2 + bit` (no `u8` overflow occurs: the accumulator is
  reset every 8 bits, so it always holds fewer than 8 bits when shifted).
* `String::from_utf8` validates and decodes UTF-8; `decodeUtf8` below is
  the standard strict UTF-8 decoder (rejecting overlong forms, surrogates
  and values above U+10FFFF), matching Rust's validation.
-/
import Mathlib

set_option linter.unusedVariables false

namespace WhisperText

/-- `ZERO_BIT` from codec.rs: U+200B (ZERO WIDTH SPACE), binary 0. -/
def ZERO_BIT : Char := Char.ofNat 0x200B

/-- `ONE_BIT` from codec.rs: U+200C (ZERO WIDTH NON-JOINER), binary 1. -/
def ONE_BIT : Char := Char.ofNat 0x200C

/-- `START_MARKER` from codec.rs: U+200D (ZERO WIDTH JOINER). -/
def START_MARKER : Char := Char.ofNat 0x200D

/-- `END_MARKER` from codec.rs: U+FEFF (ZERO WIDTH NO-BREAK SPACE). -/
def END_MARKER : Char := Char.ofNat 0xFEFF

/-- The error enum from error.rs. -/
inductive Error where
  | CoverTextTooShort
  | NoHiddenMessage
  | CorruptedPayload
  | InvalidUtf8
deriving DecidableEq, Repr

deriving instance DecidableEq for Except

/-- UTF-8 encoding of one Unicode scalar value (Rust `char::encode_utf8`,
written with `/` and `%` for the bit shifts and masks). -/
def utf8EncodeChar (c : Char) : List Nat :=
  let n := c.toNat
  if n < 0x80 then [n]
  else if n < 0x800 then [0xC0 + n / 64, 0x80 + n % 64]
  else if n < 0x10000 then [0xE0 + n / 4096, 0x80 + n / 64 % 64, 0x80 + n % 64]
  else [0xF0 + n / 262144, 0x80 + n / 4096 % 64, 0x80 + n / 64 % 64, 0x80 + n % 64]

/-- The byte sequence of a string (Rust `str::as_bytes`): the
concatenation of the UTF-8 encodings of its scalar values. -/
def stringBytes (s : List Char) : List Nat :=
  s.flatMap utf8EncodeChar

/-- One step of strict UTF-8 decoding: the scalar value encoded by the
first 1–4 bytes of the list and the remaining bytes, or `none` on invalid
input (truncated sequence, bad continuation byte, overlong form,
surrogate, value above U+10FFFF).  The remainder carries its length bound
only so that `decodeUtf8` below is visibly terminating. -/
def decodeUtf8One : (l : List Nat) → Option (Char × {rem : List Nat // rem.length < l.length})
  | [] => none
  | b :: rest =>
    if b < 0x80 then
      some (Char.ofNat b, ⟨rest, by simp⟩)
    else if b < 0xC2 then none
    else if b < 0xE0 then
      match rest with
      | b1 :: rest2 =>
        if 0x80 ≤ b1 ∧ b1 < 0xC0 then
          some (Char.ofNat ((b - 0xC0) * 64 + (b1 - 0x80)),
            ⟨rest2, by simp only [List.length_cons]; omega⟩)
        else none
      | [] => none
    else if b < 0xF0 then
      match rest with
      | b1 :: b2 :: rest3 =>
        if (0x80 ≤ b1 ∧ b1 < 0xC0) ∧ (0x80 ≤ b2 ∧ b2 < 0xC0) then
          if 0x800 ≤ (b - 0xE0) * 4096 + (b1 - 0x80) * 64 + (b2 - 0x80) ∧
              ¬(0xD800 ≤ (b - 0xE0) * 4096 + (b1 - 0x80) * 64 + (b2 - 0x80) ∧
                (b - 0xE0) * 4096 + (b1 - 0x80) * 64 + (b2 - 0x80) ≤ 0xDFFF) then
            some (Char.ofNat ((b - 0xE0) * 4096 + (b1 - 0x80) * 64 + (b2 - 0x80)),
              ⟨rest3, by simp only [List.length_cons]; omega⟩)
          else none
        else none
      | _ => none
    else if b < 0xF5 then
      match rest with
      | b1 :: b2 :: b3 :: rest4 =>
        if (0x80 ≤ b1 ∧ b1 < 0xC0) ∧ (0x80 ≤ b2 ∧ b2 < 0xC0) ∧ (0x80 ≤ b3 ∧ b3 < 0xC0) then
          if 0x10000 ≤ (b - 0xF0) * 262144 + (b1 - 0x80) * 4096 + (b2 - 0x80) * 64 + (b3 - 0x80) ∧
              (b - 0xF0) * 262144 + (b1 - 0x80) * 4096 + (b2 - 0x80) * 64 + (b3 - 0x80) < 0x110000 then
            some (Char.ofNat
                ((b - 0xF0) * 262144 + (b1 - 0x80) * 4096 + (b2 - 0x80) * 64 + (b3 - 0x80)),
              ⟨rest4, by simp only [List.length_cons]; omega⟩)
          else none
        else none
      | _ => none
    else none

/-- Recursion driver for `decodeUtf8`.  The fuel argument only bounds the
number of decoded characters (it is consumed once per character, and
`decodeUtf8` passes the length of the byte list, which always suffices
because every character consumes at least one byte); it exists so the
function is structurally recursive and hence computable by the kernel. -/
def decodeUtf8Go : Nat → List Nat → Option (List Char)
  | _, [] => some []
  | 0, _ :: _ => none
  | fuel + 1, b :: rest =>
    match decodeUtf8One (b :: rest) with
    | some (c, ⟨rem, _⟩) => (decodeUtf8Go fuel rem).map (fun cs => c :: cs)
    | none => none

/-- Strict UTF-8 decoding (Rust `String::from_utf8`): `none` exactly on
invalid UTF-8. -/
def decodeUtf8 (l : List Nat) : Option (List Char) :=
  decodeUtf8Go l.length l

/-- The inner loop of `encode`: the 8 bits of one byte, most significant
first, `1 → ONE_BIT`, `0 → ZERO_BIT`. -/
def byteToBits (b : Nat) : List Char :=
  (List.range 8).reverse.map (fun bitPos => if b / 2 ^ bitPos % 2 = 1 then ONE_BIT else ZERO_BIT)

/-- `encode` from codec.rs: empty cover is rejected; otherwise the hidden
run `START ++ bits ++ END` is inserted after the first scalar value. -/
def encode (coverText secret : List Char) : Except Error (List Char) :=
  match coverText with
  | [] => .error .CoverTextTooShort
  | firstChar :: rest =>
    .ok (firstChar :: (START_MARKER :: (stringBytes secret).flatMap byteToBits ++ [END_MARKER]) ++ rest)

/-- Index of the first occurrence of a scalar value (models Rust
`str::find` on a single-character pattern, up to the monotone
byte-offset/character-index correspondence). -/
def findChar (c : Char) : List Char → Option Nat
  | [] => none
  | x :: xs => if x = c then some 0 else (findChar c xs).map (· + 1)

/-- The bit-decoding loop of `decode`: scans the hidden section, `ZERO_BIT`
contributes bit 0, `ONE_BIT` bit 1, every other scalar value is skipped;
bits accumulate most-significant first into `currentByte`, a byte is
emitted each time `bitCount` reaches 8, and a nonzero final `bitCount`
is `CorruptedPayload`. -/
def decodeBitsAux : List Char → Nat → Nat → Except Error (List Nat)
  | [], _, bitCount =>
    if bitCount = 0 then .ok [] else .error .CorruptedPayload
  | ch :: restChars, currentByte, bitCount =>
    match (if ch = ZERO_BIT then some 0 else if ch = ONE_BIT then some 1 else none) with
    | none => decodeBitsAux restChars currentByte bitCount
    | some bit =>
      if bitCount + 1 = 8 then
        (decodeBitsAux restChars 0 0).map (fun bs => (currentByte * 2 + bit) :: bs)
      else
        decodeBitsAux restChars (currentByte * 2 + bit) (bitCount + 1)

/-- `decode` from codec.rs. -/
def decode (encodedText : List Char) : Except Error (List Char) :=
  match findChar START_MARKER encodedText, findChar END_MARKER encodedText with
  | some startPos, some endPos =>
    if startPos < endPos then
      let hiddenSection := (encodedText.drop (startPos + 1)).take (endPos - (startPos + 1))
      match decodeBitsAux hiddenSection 0 0 with
      | .error e => .error e
      | .ok bytes =>
        match decodeUtf8 bytes with
        | some s => .ok s
        | none => .error .InvalidUtf8
    else .error .CorruptedPayload
  | _, _ => .error .NoHiddenMessage

/-- `is_zero_width_char` from utils.rs. -/
def is_zero_width_char (c : Char) : Bool :=
  c = ZERO_BIT ∨ c = ONE_BIT ∨ c = START_MARKER ∨ c = END_MARKER

/-- `strip_hidden` from utils.rs. -/
def strip_hidden (text : List Char) : List Char :=
  text.filter (fun c => !is_zero_width_char c)

/-- The symbol for one bit value: `1 → ONE_BIT`, `0 → ZERO_BIT`. -/
def bitChar (v : Nat) : Char := if v = 1 then ONE_BIT else ZERO_BIT

/-- The run of bit symbols for one byte as the spec words it: the 8 bits
of the byte, most-significant bit first, bit 1 mapped to `ONE_BIT`
(U+200C) and bit 0 to `ZERO_BIT` (U+200B). -/
def specBitChars (b : Nat) : List Char :=
  [bitChar (b / 128 % 2), bitChar (b / 64 % 2), bitChar (b / 32 % 2), bitChar (b / 16 % 2),
   bitChar (b / 8 % 2), bitChar (b / 4 % 2), bitChar (b / 2 % 2), bitChar (b % 2)]

/-- The bit values named by the bit symbols of a payload region, in
order: `ZERO_BIT ↦ 0`, `ONE_BIT ↦ 1`, every other scalar value ignored
(the classification used by the decode loop). -/
def bitsOf (l : List Char) : List Nat :=
  l.filterMap (fun ch => if ch = ZERO_BIT then some 0 else if ch = ONE_BIT then some 1 else none)

/-- The decode accumulation loop expressed on bit values (the state
machine of `decodeBitsAux` after the symbol classification). -/
def assembleBits : List Nat → Nat → Nat → Except Error (List Nat)
  | [], _, bc => if bc = 0 then .ok [] else .error .CorruptedPayload
  | v :: vs, cur, bc =>
    if bc + 1 = 8 then (assembleBits vs 0 0).map (fun bs => (cur * 2 + v) :: bs)
    else assembleBits vs (cur * 2 + v) (bc + 1)

/-- The byte sequence assembled from a bit sequence, 8 bits per byte,
most-significant bit first (as the spec words step 3 of decoding);
trailing bits that do not fill a byte are dropped. -/
def bytesOfBits : List Nat → List Nat
  | b7 :: b6 :: b5 :: b4 :: b3 :: b2 :: b1 :: b0 :: rest =>
    (b7 * 128 + b6 * 64 + b5 * 32 + b4 * 16 + b3 * 8 + b2 * 4 + b1 * 2 + b0) :: bytesOfBits rest
  | _ => []

end WhisperText

namespace WhisperText

/-! ### Basic facts about characters and UTF-8 -/

theorem toNat_ofNat_valid {n : Nat} (h : n.isValidChar) : (Char.ofNat n).toNat = n := by
  rw [Char.ofNat, dif_pos h]
  rfl

theorem char_valid (c : Char) :
    c.toNat < 0xD800 ∨ (0xDFFF < c.toNat ∧ c.toNat < 0x110000) := c.valid

theorem decodeUtf8One_length_lt (l : List Nat) (c : Char)
    (rem : {rem : List Nat // rem.length < l.length}) (h : decodeUtf8One l = some (c, rem)) :
    rem.val.length < l.length := rem.property

theorem decodeUtf8Go_congr (n : Nat) : ∀ (m : Nat) (l : List Nat),
    l.length ≤ n → l.length ≤ m → decodeUtf8Go n l = decodeUtf8Go m l := by
  induction n with
  | zero =>
    intro m l h1 h2
    cases l with
    | nil => cases m <;> rfl
    | cons b rest => simp at h1
  | succ n ih =>
    intro m l h1 h2
    cases l with
    | nil => cases m <;> rfl
    | cons b rest =>
      cases m with
      | zero => simp at h2
      | succ m =>
        simp only [decodeUtf8Go]
        rcases h : decodeUtf8One (b :: rest) with _ | ⟨c, rem, hrem⟩
        · rfl
        · show Option.map (fun cs => c :: cs) (decodeUtf8Go n rem) =
            Option.map (fun cs => c :: cs) (decodeUtf8Go m rem)
          simp only [List.length_cons] at h1 h2 hrem
          rw [ih m rem (by omega) (by omega)]

theorem decodeUtf8_nil : decodeUtf8 [] = some [] := rfl

theorem decodeUtf8_cons (b : Nat) (rest : List Nat) : decodeUtf8 (b :: rest) =
    match decodeUtf8One (b :: rest) with
    | some (c, ⟨rem, _⟩) => (decodeUtf8 rem).map (fun cs => c :: cs)
    | none => none := by
  show decodeUtf8Go (b :: rest).length (b :: rest) = _
  simp only [List.length_cons, decodeUtf8Go]
  rcases h : decodeUtf8One (b :: rest) with _ | ⟨c, rem, hrem⟩
  · rfl
  · show Option.map (fun cs => c :: cs) (decodeUtf8Go rest.length rem) =
      Option.map (fun cs => c :: cs) (decodeUtf8Go rem.length rem)
    rw [decodeUtf8Go_congr rest.length rem.length rem
      (by have := hrem; simp only [List.length_cons] at this; omega) (Nat.le_refl _)]

theorem decodeUtf8_ascii (b : Nat) (rest : List Nat) (h : b < 0x80) :
    decodeUtf8 (b :: rest) = (decodeUtf8 rest).map (fun cs => Char.ofNat b :: cs) := by
  rw [decodeUtf8_cons]
  simp only [decodeUtf8One, if_pos h]

theorem decodeUtf8_two (b b1 : Nat) (rest : List Nat) (h1 : 0xC2 ≤ b) (h2 : b < 0xE0) :
    decodeUtf8 (b :: b1 :: rest) =
      if 0x80 ≤ b1 ∧ b1 < 0xC0 then
        (decodeUtf8 rest).map (fun cs => Char.ofNat ((b - 0xC0) * 64 + (b1 - 0x80)) :: cs)
      else none := by
  rw [decodeUtf8_cons]
  simp only [decodeUtf8One]
  rw [if_neg (by omega), if_neg (by omega), if_pos (by omega)]
  by_cases hc : 0x80 ≤ b1 ∧ b1 < 0xC0
  · rw [if_pos hc, if_pos hc]
  · rw [if_neg hc, if_neg hc]

theorem decodeUtf8_three (b b1 b2 : Nat) (rest : List Nat) (h1 : 0xE0 ≤ b) (h2 : b < 0xF0) :
    decodeUtf8 (b :: b1 :: b2 :: rest) =
      if (0x80 ≤ b1 ∧ b1 < 0xC0) ∧ (0x80 ≤ b2 ∧ b2 < 0xC0) then
        if 0x800 ≤ (b - 0xE0) * 4096 + (b1 - 0x80) * 64 + (b2 - 0x80) ∧
            ¬(0xD800 ≤ (b - 0xE0) * 4096 + (b1 - 0x80) * 64 + (b2 - 0x80) ∧
              (b - 0xE0) * 4096 + (b1 - 0x80) * 64 + (b2 - 0x80) ≤ 0xDFFF) then
          (decodeUtf8 rest).map
            (fun cs => Char.ofNat ((b - 0xE0) * 4096 + (b1 - 0x80) * 64 + (b2 - 0x80)) :: cs)
        else none
      else none := by
  rw [decodeUtf8_cons]
  simp only [decodeUtf8One]
  rw [if_neg (by omega), if_neg (by omega), if_neg (by omega), if_pos (by omega)]
  by_cases hc : (0x80 ≤ b1 ∧ b1 < 0xC0) ∧ (0x80 ≤ b2 ∧ b2 < 0xC0)
  · rw [if_pos hc, if_pos hc]
    by_cases hr : 0x800 ≤ (b - 0xE0) * 4096 + (b1 - 0x80) * 64 + (b2 - 0x80) ∧
        ¬(0xD800 ≤ (b - 0xE0) * 4096 + (b1 - 0x80) * 64 + (b2 - 0x80) ∧
          (b - 0xE0) * 4096 + (b1 - 0x80) * 64 + (b2 - 0x80) ≤ 0xDFFF)
    · rw [if_pos hr, if_pos hr]
    · rw [if_neg hr, if_neg hr]
  · rw [if_neg hc, if_neg hc]

theorem decodeUtf8_four (b b1 b2 b3 : Nat) (rest : List Nat) (h1 : 0xF0 ≤ b) (h2 : b < 0xF5) :
    decodeUtf8 (b :: b1 :: b2 :: b3 :: rest) =
      if (0x80 ≤ b1 ∧ b1 < 0xC0) ∧ (0x80 ≤ b2 ∧ b2 < 0xC0) ∧ (0x80 ≤ b3 ∧ b3 < 0xC0) then
        if 0x10000 ≤ (b - 0xF0) * 262144 + (b1 - 0x80) * 4096 + (b2 - 0x80) * 64 + (b3 - 0x80) ∧
            (b - 0xF0) * 262144 + (b1 - 0x80) * 4096 + (b2 - 0x80) * 64 + (b3 - 0x80) < 0x110000 then
          (decodeUtf8 rest).map
            (fun cs => Char.ofNat
              ((b - 0xF0) * 262144 + (b1 - 0x80) * 4096 + (b2 - 0x80) * 64 + (b3 - 0x80)) :: cs)
        else none
      else none := by
  rw [decodeUtf8_cons]
  simp only [decodeUtf8One]
  rw [if_neg (by omega), if_neg (by omega), if_neg (by omega), if_neg (by omega),
    if_pos (by omega)]
  by_cases hc : (0x80 ≤ b1 ∧ b1 < 0xC0) ∧ (0x80 ≤ b2 ∧ b2 < 0xC0) ∧ (0x80 ≤ b3 ∧ b3 < 0xC0)
  · rw [if_pos hc, if_pos hc]
    by_cases hr : 0x10000 ≤ (b - 0xF0) * 262144 + (b1 - 0x80) * 4096 + (b2 - 0x80) * 64 +
          (b3 - 0x80) ∧
        (b - 0xF0) * 262144 + (b1 - 0x80) * 4096 + (b2 - 0x80) * 64 + (b3 - 0x80) < 0x110000
    · rw [if_pos hr, if_pos hr]
    · rw [if_neg hr, if_neg hr]
  · rw [if_neg hc, if_neg hc]

theorem decodeUtf8_encodeChar (c : Char) (bs : List Nat) :
    decodeUtf8 (utf8EncodeChar c ++ bs) = (decodeUtf8 bs).map (fun cs => c :: cs) := by
  have hv := char_valid c
  have hofn : Char.ofNat c.toNat = c := Char.ofNat_toNat c
  simp only [utf8EncodeChar]
  by_cases h1 : c.toNat < 0x80
  · rw [if_pos h1]
    simp only [List.cons_append, List.nil_append]
    rw [decodeUtf8_ascii _ _ h1, hofn]
  · by_cases h2 : c.toNat < 0x800
    · rw [if_neg h1, if_pos h2]
      simp only [List.cons_append, List.nil_append]
      rw [decodeUtf8_two _ _ _ (by omega) (by omega), if_pos (by omega)]
      have hval : (0xC0 + c.toNat / 64 - 0xC0) * 64 + (0x80 + c.toNat % 64 - 0x80) = c.toNat := by
        omega
      rw [hval, hofn]
    · by_cases h3 : c.toNat < 0x10000
      · rw [if_neg h1, if_neg h2, if_pos h3]
        simp only [List.cons_append, List.nil_append]
        rw [decodeUtf8_three _ _ _ _ (by omega) (by omega), if_pos (by omega)]
        have hval : (0xE0 + c.toNat / 4096 - 0xE0) * 4096 + (0x80 + c.toNat / 64 % 64 - 0x80) * 64 +
            (0x80 + c.toNat % 64 - 0x80) = c.toNat := by
          omega
        rw [hval, if_pos (by omega), hofn]
      · rw [if_neg h1, if_neg h2, if_neg h3]
        simp only [List.cons_append, List.nil_append]
        rw [decodeUtf8_four _ _ _ _ _ (by omega) (by omega), if_pos (by omega)]
        have hval : (0xF0 + c.toNat / 262144 - 0xF0) * 262144 +
            (0x80 + c.toNat / 4096 % 64 - 0x80) * 4096 +
            (0x80 + c.toNat / 64 % 64 - 0x80) * 64 + (0x80 + c.toNat % 64 - 0x80) = c.toNat := by
          omega
        rw [hval, if_pos (by omega), hofn]

/-- UTF-8 decoding is a left inverse of UTF-8 encoding on strings. -/
theorem decodeUtf8_stringBytes (s : List Char) : decodeUtf8 (stringBytes s) = some s := by
  induction s with
  | nil => rfl
  | cons c cs ih =>
    rw [stringBytes, List.flatMap_cons, decodeUtf8_encodeChar]
    rw [stringBytes] at ih
    rw [ih]
    rfl

theorem utf8EncodeChar_lt_256 (c : Char) : ∀ b ∈ utf8EncodeChar c, b < 256 := by
  have hv := char_valid c
  intro b hb
  simp only [utf8EncodeChar] at hb
  by_cases h1 : c.toNat < 0x80
  · rw [if_pos h1] at hb
    simp only [List.mem_singleton] at hb
    omega
  · by_cases h2 : c.toNat < 0x800
    · rw [if_neg h1, if_pos h2] at hb
      simp only [List.mem_cons, List.not_mem_nil, or_false] at hb
      rcases hb with rfl | rfl <;> omega
    · by_cases h3 : c.toNat < 0x10000
      · rw [if_neg h1, if_neg h2, if_pos h3] at hb
        simp only [List.mem_cons, List.not_mem_nil, or_false] at hb
        rcases hb with rfl | rfl | rfl <;> omega
      · rw [if_neg h1, if_neg h2, if_neg h3] at hb
        simp only [List.mem_cons, List.not_mem_nil, or_false] at hb
        rcases hb with rfl | rfl | rfl | rfl <;> omega

theorem stringBytes_lt_256 (s : List Char) : ∀ b ∈ stringBytes s, b < 256 := by
  intro b hb
  rw [stringBytes, List.mem_flatMap] at hb
  obtain ⟨c, _, hbc⟩ := hb
  exact utf8EncodeChar_lt_256 c b hbc

/-! ### Bit symbols and the bit-decoding loop -/

theorem byteToBits_eq (b : Nat) : byteToBits b =
    [bitChar (b / 128 % 2), bitChar (b / 64 % 2), bitChar (b / 32 % 2), bitChar (b / 16 % 2),
     bitChar (b / 8 % 2), bitChar (b / 4 % 2), bitChar (b / 2 % 2), bitChar (b % 2)] := by
  norm_num [byteToBits, bitChar, List.range_succ]

theorem byteToBits_length (b : Nat) : (byteToBits b).length = 8 := by
  rw [byteToBits_eq]
  rfl

theorem bitChar_mem (v : Nat) : bitChar v = ZERO_BIT ∨ bitChar v = ONE_BIT := by
  unfold bitChar
  split
  · right
    rfl
  · left
    rfl

theorem byteToBits_mem (b : Nat) : ∀ ch ∈ byteToBits b, ch = ZERO_BIT ∨ ch = ONE_BIT := by
  rw [byteToBits_eq]
  intro ch hch
  fin_cases hch <;> exact bitChar_mem _

theorem end_marker_not_mem_byteToBits (b : Nat) : END_MARKER ∉ byteToBits b := by
  intro h
  rcases byteToBits_mem b _ h with h' | h' <;> revert h' <;> decide

theorem decodeBitsAux_skip (ch : Char) (h0 : ch ≠ ZERO_BIT) (h1 : ch ≠ ONE_BIT)
    (l : List Char) (cur bc : Nat) :
    decodeBitsAux (ch :: l) cur bc = decodeBitsAux l cur bc := by
  simp [decodeBitsAux, h0, h1]

theorem decodeBitsAux_bit (v : Nat) (hv : v ≤ 1) (l : List Char) (cur bc : Nat) :
    decodeBitsAux (bitChar v :: l) cur bc =
      if bc + 1 = 8 then (decodeBitsAux l 0 0).map (fun bs => (cur * 2 + v) :: bs)
      else decodeBitsAux l (cur * 2 + v) (bc + 1) := by
  interval_cases v
  · simp [decodeBitsAux, bitChar]
  · simp [decodeBitsAux, bitChar, show ONE_BIT ≠ ZERO_BIT from by decide]

theorem decodeBitsAux_byteToBits (b : Nat) (hb : b < 256) (l : List Char) :
    decodeBitsAux (byteToBits b ++ l) 0 0 = (decodeBitsAux l 0 0).map (fun bs => b :: bs) := by
  rw [byteToBits_eq]
  simp only [List.cons_append, List.nil_append]
  rw [decodeBitsAux_bit _ (by omega), if_neg (by decide)]
  rw [decodeBitsAux_bit _ (by omega), if_neg (by decide)]
  rw [decodeBitsAux_bit _ (by omega), if_neg (by decide)]
  rw [decodeBitsAux_bit _ (by omega), if_neg (by decide)]
  rw [decodeBitsAux_bit _ (by omega), if_neg (by decide)]
  rw [decodeBitsAux_bit _ (by omega), if_neg (by decide)]
  rw [decodeBitsAux_bit _ (by omega), if_neg (by decide)]
  rw [decodeBitsAux_bit _ (by omega), if_pos rfl]
  have hacc : (((((((0 * 2 + b / 128 % 2) * 2 + b / 64 % 2) * 2 + b / 32 % 2) * 2 + b / 16 % 2) * 2 +
      b / 8 % 2) * 2 + b / 4 % 2) * 2 + b / 2 % 2) * 2 + b % 2 = b := by
    omega
  rw [hacc]

theorem decodeBitsAux_flatMap (bytes : List Nat) (h : ∀ x ∈ bytes, x < 256) :
    decodeBitsAux (bytes.flatMap byteToBits) 0 0 = .ok bytes := by
  induction bytes with
  | nil => rfl
  | cons b bs ih =>
    rw [List.flatMap_cons, decodeBitsAux_byteToBits b (h b (by simp)) _]
    rw [ih (fun x hx => h x (by simp [hx]))]
    rfl

/-! ### Locating markers -/

theorem findChar_eq_none (c : Char) (l : List Char) : findChar c l = none ↔ c ∉ l := by
  induction l with
  | nil => simp [findChar]
  | cons x xs ih =>
    by_cases hx : x = c
    · subst hx
      simp [findChar]
    · simp [findChar, hx, ih, Ne.symm hx]

theorem findChar_append_right (c : Char) (p t : List Char) (h : c ∉ p) :
    findChar c (p ++ t) = (findChar c t).map (· + p.length) := by
  induction p with
  | nil =>
    simp only [List.nil_append, List.length_nil]
    cases findChar c t <;> simp
  | cons x xs ih =>
    have hx : x ≠ c := fun hxc => h (hxc ▸ List.mem_cons_self x xs)
    have hxs : c ∉ xs := fun hc => h (List.mem_cons_of_mem x hc)
    rw [List.cons_append]
    show (if x = c then some 0 else (findChar c (xs ++ t)).map (· + 1)) =
      (findChar c t).map (· + (x :: xs).length)
    rw [if_neg hx, ih hxs]
    cases findChar c t <;> simp [Nat.add_assoc]

theorem findChar_first (c : Char) (a z : List Char) (h : c ∉ a) :
    findChar c (a ++ c :: z) = some a.length := by
  rw [findChar_append_right c a _ h]
  simp [findChar]

/-! ### Decoding a decomposed text -/

/-- Any text whose first `START_MARKER` precedes its first `END_MARKER`
decomposes as `a ++ START :: m ++ END :: z` with no `START` in `a` and no
`END` in `a` or `m`; on such a text `decode` runs the bit loop on `m`. -/
theorem decode_decomp (a m z : List Char) (hSa : START_MARKER ∉ a) (hEa : END_MARKER ∉ a)
    (hEm : END_MARKER ∉ m) :
    decode (a ++ START_MARKER :: (m ++ END_MARKER :: z)) =
      match decodeBitsAux m 0 0 with
      | .error e => .error e
      | .ok bytes =>
        match decodeUtf8 bytes with
        | some s => .ok s
        | none => .error .InvalidUtf8 := by
  have hS : findChar START_MARKER (a ++ START_MARKER :: (m ++ END_MARKER :: z)) = some a.length :=
    findChar_first _ a _ hSa
  have hE : findChar END_MARKER (a ++ START_MARKER :: (m ++ END_MARKER :: z)) =
      some (a.length + (m.length + 1)) := by
    have hrw : a ++ START_MARKER :: (m ++ END_MARKER :: z) =
        (a ++ START_MARKER :: m) ++ END_MARKER :: z := by
      simp
    have hnm : END_MARKER ∉ a ++ START_MARKER :: m := by
      simp only [List.mem_append, List.mem_cons]
      push_neg
      exact ⟨hEa, by decide, hEm⟩
    rw [hrw, findChar_first _ _ _ hnm]
    simp [Nat.add_comm, Nat.add_assoc, Nat.add_left_comm]
  have hdrop : (a ++ START_MARKER :: (m ++ END_MARKER :: z)).drop (a.length + 1) =
      m ++ END_MARKER :: z := by
    rw [show a ++ START_MARKER :: (m ++ END_MARKER :: z) =
      (a ++ [START_MARKER]) ++ (m ++ END_MARKER :: z) from by simp]
    exact List.drop_left' (by simp)
  have htake : (m ++ END_MARKER :: z).take (a.length + (m.length + 1) - (a.length + 1)) = m := by
    have harith : a.length + (m.length + 1) - (a.length + 1) = m.length := by omega
    rw [harith]
    exact List.take_left' rfl
  simp only [decode, hS, hE]
  rw [if_pos (by omega), hdrop, htake]

/-! ### The bit loop versus bit values -/

theorem decodeBitsAux_nil (cur bc : Nat) : decodeBitsAux [] cur bc =
    if bc = 0 then .ok [] else .error .CorruptedPayload := rfl

theorem decodeBitsAux_cons (ch : Char) (l : List Char) (cur bc : Nat) :
    decodeBitsAux (ch :: l) cur bc =
      match (if ch = ZERO_BIT then some 0 else if ch = ONE_BIT then some 1 else none) with
      | none => decodeBitsAux l cur bc
      | some bit =>
        if bc + 1 = 8 then (decodeBitsAux l 0 0).map (fun bs => (cur * 2 + bit) :: bs)
        else decodeBitsAux l (cur * 2 + bit) (bc + 1) := rfl

theorem decodeBitsAux_cons_none (ch : Char)
    (hcls : (if ch = ZERO_BIT then (some 0 : Option Nat) else
      if ch = ONE_BIT then some 1 else none) = none) (l : List Char) (cur bc : Nat) :
    decodeBitsAux (ch :: l) cur bc = decodeBitsAux l cur bc := by
  rw [decodeBitsAux_cons, hcls]

theorem decodeBitsAux_cons_bit (ch : Char) (bit : Nat)
    (hcls : (if ch = ZERO_BIT then (some 0 : Option Nat) else
      if ch = ONE_BIT then some 1 else none) = some bit) (l : List Char) (cur bc : Nat) :
    decodeBitsAux (ch :: l) cur bc =
      if bc + 1 = 8 then (decodeBitsAux l 0 0).map (fun bs => (cur * 2 + bit) :: bs)
      else decodeBitsAux l (cur * 2 + bit) (bc + 1) := by
  rw [decodeBitsAux_cons, hcls]

theorem bitsOf_cons_none (ch : Char)
    (hcls : (if ch = ZERO_BIT then (some 0 : Option Nat) else
      if ch = ONE_BIT then some 1 else none) = none) (l : List Char) :
    bitsOf (ch :: l) = bitsOf l := by
  rw [bitsOf, List.filterMap_cons, hcls]
  rfl

theorem bitsOf_cons_bit (ch : Char) (bit : Nat)
    (hcls : (if ch = ZERO_BIT then (some 0 : Option Nat) else
      if ch = ONE_BIT then some 1 else none) = some bit) (l : List Char) :
    bitsOf (ch :: l) = bit :: bitsOf l := by
  rw [bitsOf, List.filterMap_cons, hcls]
  rfl

theorem assembleBits_cons (v : Nat) (vs : List Nat) (cur bc : Nat) :
    assembleBits (v :: vs) cur bc =
      if bc + 1 = 8 then (assembleBits vs 0 0).map (fun bs => (cur * 2 + v) :: bs)
      else assembleBits vs (cur * 2 + v) (bc + 1) := rfl

theorem decodeBitsAux_eq_assembleBits (l : List Char) : ∀ cur bc,
    decodeBitsAux l cur bc = assembleBits (bitsOf l) cur bc := by
  induction l with
  | nil => intro cur bc; rfl
  | cons ch l ih =>
    intro cur bc
    rcases hcls : (if ch = ZERO_BIT then (some 0 : Option Nat) else
        if ch = ONE_BIT then some 1 else none) with _ | bit
    · rw [decodeBitsAux_cons_none ch hcls, bitsOf_cons_none ch hcls, ih]
    · rw [decodeBitsAux_cons_bit ch bit hcls, bitsOf_cons_bit ch bit hcls, assembleBits_cons]
      by_cases h8 : bc + 1 = 8
      · rw [if_pos h8, if_pos h8, ih]
      · rw [if_neg h8, if_neg h8, ih]

theorem assembleBits_ok_aux (n : Nat) : ∀ (bits : List Nat), bits.length = n →
    bits.length % 8 = 0 → assembleBits bits 0 0 = .ok (bytesOfBits bits) := by
  induction n using Nat.strong_induction_on with
  | _ n ih =>
    intro bits hlen hmod
    rcases bits with _ | ⟨b7, t⟩
    · rfl
    rcases t with _ | ⟨b6, t⟩
    · simp at hmod
    rcases t with _ | ⟨b5, t⟩
    · simp at hmod
    rcases t with _ | ⟨b4, t⟩
    · simp at hmod
    rcases t with _ | ⟨b3, t⟩
    · simp at hmod
    rcases t with _ | ⟨b2, t⟩
    · simp at hmod
    rcases t with _ | ⟨b1, t⟩
    · simp at hmod
    rcases t with _ | ⟨b0, rest⟩
    · simp at hmod
    simp only [List.length_cons] at hlen hmod
    rw [assembleBits_cons, if_neg (by decide)]
    rw [assembleBits_cons, if_neg (by decide)]
    rw [assembleBits_cons, if_neg (by decide)]
    rw [assembleBits_cons, if_neg (by decide)]
    rw [assembleBits_cons, if_neg (by decide)]
    rw [assembleBits_cons, if_neg (by decide)]
    rw [assembleBits_cons, if_neg (by decide)]
    rw [assembleBits_cons, if_pos rfl]
    rw [ih (rest.length + 8 - 8) (by omega) rest (by omega) (by omega)]
    show Except.ok _ = _
    rw [show bytesOfBits (b7 :: b6 :: b5 :: b4 :: b3 :: b2 :: b1 :: b0 :: rest) =
      (b7 * 128 + b6 * 64 + b5 * 32 + b4 * 16 + b3 * 8 + b2 * 4 + b1 * 2 + b0) ::
        bytesOfBits rest from rfl]
    have hacc : (((((((0 * 2 + b7) * 2 + b6) * 2 + b5) * 2 + b4) * 2 + b3) * 2 + b2) * 2 + b1) * 2 +
        b0 = b7 * 128 + b6 * 64 + b5 * 32 + b4 * 16 + b3 * 8 + b2 * 4 + b1 * 2 + b0 := by
      ring
    rw [hacc]

theorem assembleBits_ok (bits : List Nat) (hmod : bits.length % 8 = 0) :
    assembleBits bits 0 0 = .ok (bytesOfBits bits) :=
  assembleBits_ok_aux bits.length bits rfl hmod

theorem decodeBitsAux_not_mul8 (l : List Char) : ∀ cur bc, bc < 8 →
    ((bitsOf l).length + bc) % 8 ≠ 0 → decodeBitsAux l cur bc = .error .CorruptedPayload := by
  induction l with
  | nil =>
    intro cur bc hbc h
    rw [decodeBitsAux_nil, if_neg (by simp [bitsOf] at h; omega)]
  | cons ch l ih =>
    intro cur bc hbc h
    rcases hcls : (if ch = ZERO_BIT then (some 0 : Option Nat) else
        if ch = ONE_BIT then some 1 else none) with _ | bit
    · rw [bitsOf_cons_none ch hcls] at h
      rw [decodeBitsAux_cons_none ch hcls]
      exact ih cur bc hbc h
    · rw [bitsOf_cons_bit ch bit hcls, List.length_cons] at h
      rw [decodeBitsAux_cons_bit ch bit hcls]
      by_cases h8 : bc + 1 = 8
      · rw [if_pos h8, ih 0 0 (by omega) (by omega)]
        rfl
      · rw [if_neg h8, ih (cur * 2 + bit) (bc + 1) (by omega) (by omega)]

theorem decodeBitsAux_error_eq (l : List Char) : ∀ cur bc e,
    decodeBitsAux l cur bc = .error e → e = .CorruptedPayload := by
  induction l with
  | nil =>
    intro cur bc e h
    rw [decodeBitsAux_nil] at h
    by_cases hbc : bc = 0
    · rw [if_pos hbc] at h
      cases h
    · rw [if_neg hbc] at h
      cases h
      rfl
  | cons ch l ih =>
    intro cur bc e h
    rcases hcls : (if ch = ZERO_BIT then (some 0 : Option Nat) else
        if ch = ONE_BIT then some 1 else none) with _ | bit
    · rw [decodeBitsAux_cons_none ch hcls] at h
      exact ih _ _ _ h
    · rw [decodeBitsAux_cons_bit ch bit hcls] at h
      by_cases h8 : bc + 1 = 8
      · rw [if_pos h8] at h
        cases hrec : decodeBitsAux l 0 0 with
        | error e' =>
          rw [hrec] at h
          cases h
          exact ih _ _ _ hrec
        | ok bs =>
          rw [hrec] at h
          cases h
      · rw [if_neg h8] at h
        exact ih _ _ _ h

theorem decodeBitsAux_insert_skip (c : Char) (hc0 : c ≠ ZERO_BIT) (hc1 : c ≠ ONE_BIT)
    (m1 : List Char) : ∀ (m2 : List Char) (cur bc : Nat),
    decodeBitsAux (m1 ++ c :: m2) cur bc = decodeBitsAux (m1 ++ m2) cur bc := by
  induction m1 with
  | nil =>
    intro m2 cur bc
    simp only [List.nil_append]
    exact decodeBitsAux_skip c hc0 hc1 m2 cur bc
  | cons x xs ih =>
    intro m2 cur bc
    rw [List.cons_append, List.cons_append]
    rcases hcls : (if x = ZERO_BIT then (some 0 : Option Nat) else
        if x = ONE_BIT then some 1 else none) with _ | bit
    · rw [decodeBitsAux_cons_none x hcls, decodeBitsAux_cons_none x hcls]
      exact ih m2 cur bc
    · rw [decodeBitsAux_cons_bit x bit hcls, decodeBitsAux_cons_bit x bit hcls]
      by_cases h8 : bc + 1 = 8
      · rw [if_pos h8, if_pos h8, ih m2 0 0]
      · rw [if_neg h8, if_neg h8, ih m2 (cur * 2 + bit) (bc + 1)]

/-! ### UTF-8 encoding is a left inverse of UTF-8 decoding -/

theorem decodeUtf8One_ascii (b : Nat) (rest : List Nat) (h : b < 0x80) :
    decodeUtf8One (b :: rest) = some (Char.ofNat b, ⟨rest, by simp⟩) := by
  simp only [decodeUtf8One]
  rw [if_pos h]

theorem decodeUtf8One_low (b : Nat) (rest : List Nat) (h : 0x80 ≤ b) (h' : b < 0xC2) :
    decodeUtf8One (b :: rest) = none := by
  simp only [decodeUtf8One]
  rw [if_neg (by omega), if_pos (by omega)]

theorem decodeUtf8One_high (b : Nat) (rest : List Nat) (h : 0xF5 ≤ b) :
    decodeUtf8One (b :: rest) = none := by
  simp only [decodeUtf8One]
  rw [if_neg (by omega), if_neg (by omega), if_neg (by omega), if_neg (by omega),
    if_neg (by omega)]

theorem decodeUtf8One_two (b b1 : Nat) (rest : List Nat) (hb : 0xC2 ≤ b) (hb' : b < 0xE0) :
    decodeUtf8One (b :: b1 :: rest) =
      if 0x80 ≤ b1 ∧ b1 < 0xC0 then
        some (Char.ofNat ((b - 0xC0) * 64 + (b1 - 0x80)),
          ⟨rest, by simp only [List.length_cons]; omega⟩)
      else none := by
  simp only [decodeUtf8One]
  rw [if_neg (by omega), if_neg (by omega), if_pos (by omega)]

theorem decodeUtf8One_two_short (b : Nat) (hb : 0xC2 ≤ b) (hb' : b < 0xE0) :
    decodeUtf8One [b] = none := by
  simp only [decodeUtf8One]
  rw [if_neg (by omega), if_neg (by omega), if_pos (by omega)]

theorem decodeUtf8One_three (b b1 b2 : Nat) (rest : List Nat) (hb : 0xE0 ≤ b) (hb' : b < 0xF0) :
    decodeUtf8One (b :: b1 :: b2 :: rest) =
      if (0x80 ≤ b1 ∧ b1 < 0xC0) ∧ (0x80 ≤ b2 ∧ b2 < 0xC0) then
        if 0x800 ≤ (b - 0xE0) * 4096 + (b1 - 0x80) * 64 + (b2 - 0x80) ∧
            ¬(0xD800 ≤ (b - 0xE0) * 4096 + (b1 - 0x80) * 64 + (b2 - 0x80) ∧
              (b - 0xE0) * 4096 + (b1 - 0x80) * 64 + (b2 - 0x80) ≤ 0xDFFF) then
          some (Char.ofNat ((b - 0xE0) * 4096 + (b1 - 0x80) * 64 + (b2 - 0x80)),
            ⟨rest, by simp only [List.length_cons]; omega⟩)
        else none
      else none := by
  simp only [decodeUtf8One]
  rw [if_neg (by omega), if_neg (by omega), if_neg (by omega), if_pos (by omega)]

theorem decodeUtf8One_three_short1 (b : Nat) (hb : 0xE0 ≤ b) (hb' : b < 0xF0) :
    decodeUtf8One [b] = none := by
  simp only [decodeUtf8One]
  rw [if_neg (by omega), if_neg (by omega), if_neg (by omega), if_pos (by omega)]

theorem decodeUtf8One_three_short2 (b b1 : Nat) (hb : 0xE0 ≤ b) (hb' : b < 0xF0) :
    decodeUtf8One [b, b1] = none := by
  simp only [decodeUtf8One]
  rw [if_neg (by omega), if_neg (by omega), if_neg (by omega), if_pos (by omega)]

theorem decodeUtf8One_four (b b1 b2 b3 : Nat) (rest : List Nat) (hb : 0xF0 ≤ b) (hb' : b < 0xF5) :
    decodeUtf8One (b :: b1 :: b2 :: b3 :: rest) =
      if (0x80 ≤ b1 ∧ b1 < 0xC0) ∧ (0x80 ≤ b2 ∧ b2 < 0xC0) ∧ (0x80 ≤ b3 ∧ b3 < 0xC0) then
        if 0x10000 ≤ (b - 0xF0) * 262144 + (b1 - 0x80) * 4096 + (b2 - 0x80) * 64 + (b3 - 0x80) ∧
            (b - 0xF0) * 262144 + (b1 - 0x80) * 4096 + (b2 - 0x80) * 64 + (b3 - 0x80) < 0x110000 then
          some (Char.ofNat
              ((b - 0xF0) * 262144 + (b1 - 0x80) * 4096 + (b2 - 0x80) * 64 + (b3 - 0x80)),
            ⟨rest, by simp only [List.length_cons]; omega⟩)
        else none
      else none := by
  simp only [decodeUtf8One]
  rw [if_neg (by omega), if_neg (by omega), if_neg (by omega), if_neg (by omega),
    if_pos (by omega)]

theorem decodeUtf8One_four_short1 (b : Nat) (hb : 0xF0 ≤ b) (hb' : b < 0xF5) :
    decodeUtf8One [b] = none := by
  simp only [decodeUtf8One]
  rw [if_neg (by omega), if_neg (by omega), if_neg (by omega), if_neg (by omega),
    if_pos (by omega)]

theorem decodeUtf8One_four_short2 (b b1 : Nat) (hb : 0xF0 ≤ b) (hb' : b < 0xF5) :
    decodeUtf8One [b, b1] = none := by
  simp only [decodeUtf8One]
  rw [if_neg (by omega), if_neg (by omega), if_neg (by omega), if_neg (by omega),
    if_pos (by omega)]

theorem decodeUtf8One_four_short3 (b b1 b2 : Nat) (hb : 0xF0 ≤ b) (hb' : b < 0xF5) :
    decodeUtf8One [b, b1, b2] = none := by
  simp only [decodeUtf8One]
  rw [if_neg (by omega), if_neg (by omega), if_neg (by omega), if_neg (by omega),
    if_pos (by omega)]

theorem decodeUtf8One_sound (l : List Nat) (c : Char)
    (rem : {rem : List Nat // rem.length < l.length}) (h : decodeUtf8One l = some (c, rem)) :
    utf8EncodeChar c ++ rem.val = l := by
  obtain ⟨remv, hremlt⟩ := rem
  rcases l with _ | ⟨b, rest⟩
  · simp [decodeUtf8One] at h
  by_cases h1 : b < 0x80
  · rw [decodeUtf8One_ascii b rest h1] at h
    simp only [Option.some.injEq, Prod.mk.injEq, Subtype.mk.injEq] at h
    obtain ⟨hc, hrem⟩ := h
    subst hc
    subst hrem
    have ht : (Char.ofNat b).toNat = b := toNat_ofNat_valid (Or.inl (by omega))
    simp only [utf8EncodeChar, ht]
    rw [if_pos h1]
    rfl
  by_cases h2 : b < 0xC2
  · rw [decodeUtf8One_low b rest (by omega) h2] at h
    cases h
  by_cases h3 : b < 0xE0
  · rcases rest with _ | ⟨bb1, rest2⟩
    · rw [decodeUtf8One_two_short b (by omega) h3] at h
      cases h
    rw [decodeUtf8One_two b bb1 rest2 (by omega) h3] at h
    by_cases hc1 : 0x80 ≤ bb1 ∧ bb1 < 0xC0
    · rw [if_pos hc1] at h
      simp only [Option.some.injEq, Prod.mk.injEq, Subtype.mk.injEq] at h
      obtain ⟨hc, hrem⟩ := h
      subst hc
      subst hrem
      have ht : (Char.ofNat ((b - 0xC0) * 64 + (bb1 - 0x80))).toNat =
          (b - 0xC0) * 64 + (bb1 - 0x80) := toNat_ofNat_valid (Or.inl (by omega))
      simp only [utf8EncodeChar, ht]
      rw [if_neg (by omega), if_pos (by omega)]
      rw [show 0xC0 + ((b - 0xC0) * 64 + (bb1 - 0x80)) / 64 = b from by omega,
        show 0x80 + ((b - 0xC0) * 64 + (bb1 - 0x80)) % 64 = bb1 from by omega]
      rfl
    · rw [if_neg hc1] at h
      cases h
  by_cases h4 : b < 0xF0
  · rcases rest with _ | ⟨bb1, rest'⟩
    · rw [decodeUtf8One_three_short1 b (by omega) h4] at h
      cases h
    rcases rest' with _ | ⟨bb2, rest3⟩
    · rw [decodeUtf8One_three_short2 b bb1 (by omega) h4] at h
      cases h
    rw [decodeUtf8One_three b bb1 bb2 rest3 (by omega) h4] at h
    by_cases hc1 : (0x80 ≤ bb1 ∧ bb1 < 0xC0) ∧ (0x80 ≤ bb2 ∧ bb2 < 0xC0)
    · rw [if_pos hc1] at h
      by_cases hr : 0x800 ≤ (b - 0xE0) * 4096 + (bb1 - 0x80) * 64 + (bb2 - 0x80) ∧
          ¬(0xD800 ≤ (b - 0xE0) * 4096 + (bb1 - 0x80) * 64 + (bb2 - 0x80) ∧
            (b - 0xE0) * 4096 + (bb1 - 0x80) * 64 + (bb2 - 0x80) ≤ 0xDFFF)
      · rw [if_pos hr] at h
        simp only [Option.some.injEq, Prod.mk.injEq, Subtype.mk.injEq] at h
        obtain ⟨hc, hrem⟩ := h
        subst hc
        subst hrem
        have hval : ((b - 0xE0) * 4096 + (bb1 - 0x80) * 64 + (bb2 - 0x80)) < 0xD800 ∨
            (0xDFFF < (b - 0xE0) * 4096 + (bb1 - 0x80) * 64 + (bb2 - 0x80) ∧
             (b - 0xE0) * 4096 + (bb1 - 0x80) * 64 + (bb2 - 0x80) < 0x110000) := by
          omega
        have ht : (Char.ofNat ((b - 0xE0) * 4096 + (bb1 - 0x80) * 64 + (bb2 - 0x80))).toNat =
            (b - 0xE0) * 4096 + (bb1 - 0x80) * 64 + (bb2 - 0x80) := toNat_ofNat_valid hval
        simp only [utf8EncodeChar, ht]
        rw [if_neg (by omega), if_neg (by omega), if_pos (by omega)]
        rw [show 0xE0 + ((b - 0xE0) * 4096 + (bb1 - 0x80) * 64 + (bb2 - 0x80)) / 4096 = b from
            by omega,
          show 0x80 + ((b - 0xE0) * 4096 + (bb1 - 0x80) * 64 + (bb2 - 0x80)) / 64 % 64 = bb1 from
            by omega,
          show 0x80 + ((b - 0xE0) * 4096 + (bb1 - 0x80) * 64 + (bb2 - 0x80)) % 64 = bb2 from
            by omega]
        rfl
      · rw [if_neg hr] at h
        cases h
    · rw [if_neg hc1] at h
      cases h
  by_cases h5 : b < 0xF5
  · rcases rest with _ | ⟨bb1, rest'⟩
    · rw [decodeUtf8One_four_short1 b (by omega) h5] at h
      cases h
    rcases rest' with _ | ⟨bb2, rest''⟩
    · rw [decodeUtf8One_four_short2 b bb1 (by omega) h5] at h
      cases h
    rcases rest'' with _ | ⟨bb3, rest4⟩
    · rw [decodeUtf8One_four_short3 b bb1 bb2 (by omega) h5] at h
      cases h
    rw [decodeUtf8One_four b bb1 bb2 bb3 rest4 (by omega) h5] at h
    by_cases hc1 : (0x80 ≤ bb1 ∧ bb1 < 0xC0) ∧ (0x80 ≤ bb2 ∧ bb2 < 0xC0) ∧
        (0x80 ≤ bb3 ∧ bb3 < 0xC0)
    · rw [if_pos hc1] at h
      by_cases hr : 0x10000 ≤ (b - 0xF0) * 262144 + (bb1 - 0x80) * 4096 + (bb2 - 0x80) * 64 +
            (bb3 - 0x80) ∧
          (b - 0xF0) * 262144 + (bb1 - 0x80) * 4096 + (bb2 - 0x80) * 64 + (bb3 - 0x80) < 0x110000
      · rw [if_pos hr] at h
        simp only [Option.some.injEq, Prod.mk.injEq, Subtype.mk.injEq] at h
        obtain ⟨hc, hrem⟩ := h
        subst hc
        subst hrem
        have hval : ((b - 0xF0) * 262144 + (bb1 - 0x80) * 4096 + (bb2 - 0x80) * 64 +
              (bb3 - 0x80)) < 0xD800 ∨
            (0xDFFF < (b - 0xF0) * 262144 + (bb1 - 0x80) * 4096 + (bb2 - 0x80) * 64 +
              (bb3 - 0x80) ∧
             (b - 0xF0) * 262144 + (bb1 - 0x80) * 4096 + (bb2 - 0x80) * 64 +
              (bb3 - 0x80) < 0x110000) := by
          omega
        have ht : (Char.ofNat ((b - 0xF0) * 262144 + (bb1 - 0x80) * 4096 + (bb2 - 0x80) * 64 +
              (bb3 - 0x80))).toNat =
            (b - 0xF0) * 262144 + (bb1 - 0x80) * 4096 + (bb2 - 0x80) * 64 + (bb3 - 0x80) :=
          toNat_ofNat_valid hval
        simp only [utf8EncodeChar, ht]
        rw [if_neg (by omega), if_neg (by omega), if_neg (by omega)]
        rw [show 0xF0 + ((b - 0xF0) * 262144 + (bb1 - 0x80) * 4096 + (bb2 - 0x80) * 64 +
              (bb3 - 0x80)) / 262144 = b from by omega,
          show 0x80 + ((b - 0xF0) * 262144 + (bb1 - 0x80) * 4096 + (bb2 - 0x80) * 64 +
              (bb3 - 0x80)) / 4096 % 64 = bb1 from by omega,
          show 0x80 + ((b - 0xF0) * 262144 + (bb1 - 0x80) * 4096 + (bb2 - 0x80) * 64 +
              (bb3 - 0x80)) / 64 % 64 = bb2 from by omega,
          show 0x80 + ((b - 0xF0) * 262144 + (bb1 - 0x80) * 4096 + (bb2 - 0x80) * 64 +
              (bb3 - 0x80)) % 64 = bb3 from by omega]
        rfl
      · rw [if_neg hr] at h
        cases h
    · rw [if_neg hc1] at h
      cases h
  · rw [decodeUtf8One_high b rest (by omega)] at h
    cases h

/-- UTF-8 encoding is a left inverse of UTF-8 decoding: decoded byte
lists re-encode to themselves. -/
theorem stringBytes_of_decodeUtf8_aux (n : Nat) : ∀ (bs : List Nat) (cs : List Char),
    bs.length ≤ n → decodeUtf8 bs = some cs → stringBytes cs = bs := by
  induction n with
  | zero =>
    intro bs cs hlen hdec
    rcases bs with _ | ⟨b, rest⟩
    · rw [decodeUtf8_nil] at hdec
      cases hdec
      rfl
    · simp at hlen
  | succ n ih =>
    intro bs cs hlen hdec
    rcases bs with _ | ⟨b, rest⟩
    · rw [decodeUtf8_nil] at hdec
      cases hdec
      rfl
    · rw [decodeUtf8_cons] at hdec
      rcases hone : decodeUtf8One (b :: rest) with _ | ⟨c, rem, hrem⟩ <;> rw [hone] at hdec
      · cases hdec
      · replace hdec : (decodeUtf8 rem).map (fun cs => c :: cs) = some cs := hdec
        rcases hrec : decodeUtf8 rem with _ | cs' <;> rw [hrec] at hdec <;>
          simp only [Option.map_some', Option.map_none'] at hdec
        · cases hdec
        · injection hdec with hdec
          subst hdec
          have hlt : rem.length < (b :: rest).length := hrem
          rw [stringBytes, List.flatMap_cons]
          have hres : stringBytes cs' = rem := by
            refine ih rem cs' ?_ hrec
            simp only [List.length_cons] at hlen hlt
            omega
          rw [stringBytes] at hres
          rw [hres]
          exact decodeUtf8One_sound (b :: rest) c ⟨rem, hrem⟩ hone

theorem stringBytes_of_decodeUtf8 (bs : List Nat) (cs : List Char)
    (hdec : decodeUtf8 bs = some cs) : stringBytes cs = bs :=
  stringBytes_of_decodeUtf8_aux bs.length bs cs (Nat.le_refl _) hdec

/-! ### Remaining helper lemmas -/

theorem byteToBits_eq_specBitChars : byteToBits = specBitChars := by
  funext b
  rw [byteToBits_eq]
  rfl

theorem length_flatMap_byteToBits (bytes : List Nat) :
    (bytes.flatMap byteToBits).length = 8 * bytes.length := by
  induction bytes with
  | nil => rfl
  | cons b bs ih =>
    rw [List.flatMap_cons, List.length_append, byteToBits_length, ih, List.length_cons]
    ring

/-- When both markers are found in the right order, `decode` runs the bit
loop on the scalar values strictly between them. -/
theorem decode_of_positions (t : List Char) (s e : Nat)
    (hfS : findChar START_MARKER t = some s) (hfE : findChar END_MARKER t = some e)
    (hlt : s < e) :
    decode t =
      match decodeBitsAux ((t.drop (s + 1)).take (e - (s + 1))) 0 0 with
      | .error err => .error err
      | .ok bytes =>
        match decodeUtf8 bytes with
        | some s' => .ok s'
        | none => .error .InvalidUtf8 := by
  simp only [decode, hfS, hfE]
  rw [if_pos hlt]

theorem end_marker_not_mem_flatMap_bits (bytes : List Nat) :
    END_MARKER ∉ bytes.flatMap byteToBits := by
  intro hmem
  rcases List.mem_flatMap.1 hmem with ⟨b, _, hb⟩
  exact end_marker_not_mem_byteToBits b hb

/-! ### The claims -/

/-- C1 (counterexample): the round-trip claim fails as stated for a cover
text whose first scalar value is U+FEFF (the END marker): the inserted
run then sits after an earlier END, so decode sees the markers out of
order and reports `CorruptedPayload` instead of recovering the secret. -/
theorem c1_counterexample :
    encode [END_MARKER] [] = .ok [END_MARKER, START_MARKER, END_MARKER] ∧
    decode [END_MARKER, START_MARKER, END_MARKER] = .error .CorruptedPayload := by
  decide

/-- C1 (amended): for every cover text whose first scalar value is not
U+FEFF and every secret `s`, `decode (encode c s)` succeeds and returns
exactly `s`. -/
theorem c1_round_trip (c0 : Char) (rest s : List Char) (h : c0 ≠ END_MARKER) :
    ∃ t, encode (c0 :: rest) s = .ok t ∧ decode t = .ok s := by
  refine ⟨_, rfl, ?_⟩
  have hEB : END_MARKER ∉ (stringBytes s).flatMap byteToBits :=
    end_marker_not_mem_flatMap_bits (stringBytes s)
  have hcore : decodeBitsAux ((stringBytes s).flatMap byteToBits) 0 0 = .ok (stringBytes s) :=
    decodeBitsAux_flatMap _ (stringBytes_lt_256 s)
  by_cases hc0 : c0 = START_MARKER
  · subst hc0
    have hsh : START_MARKER ::
        (START_MARKER :: (stringBytes s).flatMap byteToBits ++ [END_MARKER]) ++ rest =
        [] ++ START_MARKER ::
          ((START_MARKER :: (stringBytes s).flatMap byteToBits) ++ END_MARKER :: rest) := by
      simp
    rw [hsh, decode_decomp [] (START_MARKER :: (stringBytes s).flatMap byteToBits) rest
      (by simp) (by simp)
      (by
        intro hmem
        rcases List.mem_cons.1 hmem with h' | h'
        · exact absurd h' (by decide)
        · exact hEB h')]
    rw [decodeBitsAux_skip START_MARKER (by decide) (by decide), hcore]
    show (match decodeUtf8 (stringBytes s) with
      | some s' => Except.ok s'
      | none => Except.error Error.InvalidUtf8) = Except.ok s
    rw [decodeUtf8_stringBytes]
  · have hsh : c0 :: (START_MARKER :: (stringBytes s).flatMap byteToBits ++ [END_MARKER]) ++ rest =
        [c0] ++ START_MARKER :: ((stringBytes s).flatMap byteToBits ++ END_MARKER :: rest) := by
      simp
    rw [hsh, decode_decomp [c0] ((stringBytes s).flatMap byteToBits) rest
      (by
        intro hmem
        rcases List.mem_cons.1 hmem with h' | h'
        · exact hc0 h'.symm
        · cases h')
      (by
        intro hmem
        rcases List.mem_cons.1 hmem with h' | h'
        · exact h h'.symm
        · cases h')
      hEB]
    rw [hcore]
    show (match decodeUtf8 (stringBytes s) with
      | some s' => Except.ok s'
      | none => Except.error Error.InvalidUtf8) = Except.ok s
    rw [decodeUtf8_stringBytes]

theorem c1_round_trip_witness :
    ∃ t, encode [Char.ofNat 72] [Char.ofNat 97] = .ok t ∧ decode t = .ok [Char.ofNat 97] :=
  c1_round_trip (Char.ofNat 72) [] [Char.ofNat 97] (by decide)

/-- C2: for every non-empty cover `c0 :: rest` and secret `s`, encode
returns exactly the first scalar value, then START (U+200D), then for
each byte of the secret its 8 bits most-significant-bit first
(1 ↦ U+200C, 0 ↦ U+200B), then END (U+FEFF), then the remaining cover
scalar values unchanged; an empty secret yields START immediately
followed by END. -/
theorem c2_encode_shape (c0 : Char) (rest s : List Char) :
    encode (c0 :: rest) s =
      .ok (c0 :: START_MARKER :: ((stringBytes s).flatMap specBitChars ++ END_MARKER :: rest)) ∧
    encode (c0 :: rest) [] = .ok (c0 :: START_MARKER :: END_MARKER :: rest) := by
  constructor
  · show Except.ok
        (c0 :: (START_MARKER :: (stringBytes s).flatMap byteToBits ++ [END_MARKER]) ++ rest) = _
    rw [byteToBits_eq_specBitChars]
    simp [List.append_assoc]
  · show Except.ok
        (c0 :: (START_MARKER :: (stringBytes []).flatMap byteToBits ++ [END_MARKER]) ++ rest) = _
    simp [stringBytes]

/-- C3: the scalar-value length of the encoded text equals the cover
length plus 2 plus 8 times the byte length of the secret. -/
theorem c3_length_law (c s t : List Char) (h : encode c s = .ok t) :
    t.length = c.length + 2 + 8 * (stringBytes s).length := by
  rcases c with _ | ⟨c0, rest⟩
  · cases h
  · injection h with h
    subst h
    simp only [List.length_cons, List.length_append, length_flatMap_byteToBits,
      List.length_singleton, List.length_nil]
    omega

theorem c3_length_law_witness :
    ([Char.ofNat 72, START_MARKER, ZERO_BIT, ONE_BIT, ONE_BIT, ZERO_BIT, ZERO_BIT, ZERO_BIT,
        ZERO_BIT, ONE_BIT, END_MARKER] : List Char).length =
      ([Char.ofNat 72] : List Char).length + 2 + 8 * (stringBytes [Char.ofNat 97]).length :=
  c3_length_law [Char.ofNat 72] [Char.ofNat 97] _ (by decide)

/-- C4: decode reports `NoHiddenMessage` exactly when the text lacks a
START marker or lacks an END marker; when both are present but the first
END is at or before the first START, it reports `CorruptedPayload`. -/
theorem c4_marker_errors (t : List Char) :
    (decode t = .error .NoHiddenMessage ↔ (START_MARKER ∉ t ∨ END_MARKER ∉ t)) ∧
    (∀ s e, findChar START_MARKER t = some s → findChar END_MARKER t = some e → e ≤ s →
      decode t = .error .CorruptedPayload) := by
  constructor
  · constructor
    · intro h
      by_contra hc
      push_neg at hc
      obtain ⟨hS, hE⟩ := hc
      rcases hfS : findChar START_MARKER t with _ | s
      · exact ((findChar_eq_none _ _).1 hfS) hS
      rcases hfE : findChar END_MARKER t with _ | e
      · exact ((findChar_eq_none _ _).1 hfE) hE
      by_cases hlt : s < e
      · rcases hba : decodeBitsAux ((t.drop (s + 1)).take (e - (s + 1))) 0 0 with err | bytes
        · have hd : decode t = .error err := by
            rw [decode_of_positions t s e hfS hfE hlt, hba]
          have herr := hd.symm.trans h
          injection herr with herr
          have := decodeBitsAux_error_eq _ _ _ _ hba
          rw [herr] at this
          cases this
        · have hd : decode t =
              match decodeUtf8 bytes with
              | some s' => Except.ok s'
              | none => Except.error Error.InvalidUtf8 := by
            rw [decode_of_positions t s e hfS hfE hlt, hba]
          rcases hdu : decodeUtf8 bytes with _ | cs <;> rw [hdu] at hd
          · replace hd : decode t = .error .InvalidUtf8 := hd
            have := hd.symm.trans h
            injection this with this
            cases this
          · replace hd : decode t = .ok cs := hd
            have := hd.symm.trans h
            cases this
      · have hd : decode t = .error .CorruptedPayload := by
          simp only [decode, hfS, hfE]
          rw [if_neg hlt]
        have := hd.symm.trans h
        injection this with this
        cases this
    · intro h
      rcases h with h | h
      · have hf : findChar START_MARKER t = none := (findChar_eq_none _ _).2 h
        rcases hfE : findChar END_MARKER t with _ | e <;> simp [decode, hf, hfE]
      · have hf : findChar END_MARKER t = none := (findChar_eq_none _ _).2 h
        rcases hfS : findChar START_MARKER t with _ | s <;> simp [decode, hfS, hf]
  · intro s e hfS hfE hle
    simp only [decode, hfS, hfE]
    rw [if_neg (by omega)]

theorem c4_marker_errors_witness :
    decode [END_MARKER, START_MARKER] = .error .CorruptedPayload :=
  (c4_marker_errors [END_MARKER, START_MARKER]).2 1 0 (by decide) (by decide) (by decide)

/-- C5: when the first START precedes the first END and the count of bit
symbols (U+200B/U+200C) strictly between them is not a multiple of 8,
decode reports `CorruptedPayload`. -/
theorem c5_partial_byte (t : List Char) (s e : Nat)
    (hfS : findChar START_MARKER t = some s) (hfE : findChar END_MARKER t = some e)
    (hlt : s < e) (hcnt : (bitsOf ((t.drop (s + 1)).take (e - (s + 1)))).length % 8 ≠ 0) :
    decode t = .error .CorruptedPayload := by
  rw [decode_of_positions t s e hfS hfE hlt,
    decodeBitsAux_not_mul8 _ 0 0 (by omega) (by simpa using hcnt)]

theorem c5_partial_byte_witness :
    decode [START_MARKER, ZERO_BIT, END_MARKER] = .error .CorruptedPayload :=
  c5_partial_byte [START_MARKER, ZERO_BIT, END_MARKER] 0 2 (by decide) (by decide) (by decide)
    (by decide)

/-- C6 (counterexample): inserting U+FEFF — a scalar value outside the
bit alphabet — between correctly ordered markers changes decode's result,
because it becomes the new first END marker and truncates the payload. -/
theorem c6_counterexample :
    END_MARKER ≠ ZERO_BIT ∧ END_MARKER ≠ ONE_BIT ∧
    decode [START_MARKER, ZERO_BIT, ZERO_BIT, ZERO_BIT, ZERO_BIT, ZERO_BIT, ZERO_BIT, ZERO_BIT,
      ZERO_BIT, END_MARKER] = .ok [Char.ofNat 0] ∧
    decode [START_MARKER, END_MARKER, ZERO_BIT, ZERO_BIT, ZERO_BIT, ZERO_BIT, ZERO_BIT, ZERO_BIT,
      ZERO_BIT, ZERO_BIT, END_MARKER] = .ok [] ∧
    (Except.ok [Char.ofNat 0] : Except Error (List Char)) ≠ .ok [] := by
  decide

/-- C6 (amended): scalar values other than U+200B/U+200C inside the
payload region are skipped without error and contribute no bits;
inserting any scalar value that is neither a bit symbol nor the END
marker U+FEFF between correctly ordered markers leaves decode's result
unchanged. -/
theorem c6_skip_insertion (a m1 m2 z : List Char) (c : Char)
    (hSa : START_MARKER ∉ a) (hEa : END_MARKER ∉ a) (hEm1 : END_MARKER ∉ m1)
    (hEm2 : END_MARKER ∉ m2) (hc0 : c ≠ ZERO_BIT) (hc1 : c ≠ ONE_BIT) (hcE : c ≠ END_MARKER) :
    decode (a ++ START_MARKER :: ((m1 ++ c :: m2) ++ END_MARKER :: z)) =
      decode (a ++ START_MARKER :: ((m1 ++ m2) ++ END_MARKER :: z)) := by
  rw [decode_decomp a (m1 ++ c :: m2) z hSa hEa
      (by
        intro hmem
        rcases List.mem_append.1 hmem with h' | h'
        · exact hEm1 h'
        · rcases List.mem_cons.1 h' with h'' | h''
          · exact hcE h''.symm
          · exact hEm2 h''),
    decode_decomp a (m1 ++ m2) z hSa hEa
      (by
        intro hmem
        rcases List.mem_append.1 hmem with h' | h'
        · exact hEm1 h'
        · exact hEm2 h'),
    decodeBitsAux_insert_skip c hc0 hc1 m1 m2 0 0]

theorem c6_skip_insertion_witness :
    decode ([] ++ START_MARKER :: (([] ++ Char.ofNat 120 :: []) ++ END_MARKER :: [])) =
      decode ([] ++ START_MARKER :: (([] ++ []) ++ END_MARKER :: [])) :=
  c6_skip_insertion [] [] [] [] (Char.ofNat 120) (by decide) (by decide) (by decide) (by decide)
    (by decide) (by decide) (by decide)

/-- C7: when the first START precedes the first END and the bit-symbol
count between them is a multiple of 8, decode reports `InvalidUtf8`
exactly when the byte sequence assembled from those bits (8 bits per
byte, most-significant bit first) is not valid UTF-8; otherwise it
returns the text whose bytes are exactly that sequence. -/
theorem c7_materialize (t : List Char) (s e : Nat)
    (hfS : findChar START_MARKER t = some s) (hfE : findChar END_MARKER t = some e)
    (hlt : s < e)
    (hmod : (bitsOf ((t.drop (s + 1)).take (e - (s + 1)))).length % 8 = 0) :
    (decode t = .error .InvalidUtf8 ↔
      decodeUtf8 (bytesOfBits (bitsOf ((t.drop (s + 1)).take (e - (s + 1))))) = none) ∧
    (∀ cs, decodeUtf8 (bytesOfBits (bitsOf ((t.drop (s + 1)).take (e - (s + 1))))) = some cs →
      decode t = .ok cs ∧
        stringBytes cs = bytesOfBits (bitsOf ((t.drop (s + 1)).take (e - (s + 1))))) := by
  have hrun : decodeBitsAux ((t.drop (s + 1)).take (e - (s + 1))) 0 0 =
      .ok (bytesOfBits (bitsOf ((t.drop (s + 1)).take (e - (s + 1))))) := by
    rw [decodeBitsAux_eq_assembleBits]
    exact assembleBits_ok _ hmod
  have hd : decode t =
      match decodeUtf8 (bytesOfBits (bitsOf ((t.drop (s + 1)).take (e - (s + 1))))) with
      | some s' => Except.ok s'
      | none => Except.error Error.InvalidUtf8 := by
    rw [decode_of_positions t s e hfS hfE hlt, hrun]
  constructor
  · constructor
    · intro h
      rcases hdu : decodeUtf8 (bytesOfBits (bitsOf ((t.drop (s + 1)).take (e - (s + 1))))) with
        _ | cs
      · rfl
      · rw [hdu] at hd
        replace hd : decode t = .ok cs := hd
        have := hd.symm.trans h
        cases this
    · intro h
      rw [h] at hd
      exact hd
  · intro cs h
    rw [h] at hd
    replace hd : decode t = .ok cs := hd
    exact ⟨hd, stringBytes_of_decodeUtf8 _ _ h⟩

theorem c7_materialize_witness :
    decode [START_MARKER, ZERO_BIT, ONE_BIT, ONE_BIT, ZERO_BIT, ZERO_BIT, ZERO_BIT, ZERO_BIT,
        ONE_BIT, END_MARKER] = .ok [Char.ofNat 97] ∧
      stringBytes [Char.ofNat 97] =
        bytesOfBits (bitsOf ((([START_MARKER, ZERO_BIT, ONE_BIT, ONE_BIT, ZERO_BIT, ZERO_BIT,
          ZERO_BIT, ZERO_BIT, ONE_BIT, END_MARKER] : List Char).drop (0 + 1)).take (9 - (0 + 1)))) :=
  (c7_materialize [START_MARKER, ZERO_BIT, ONE_BIT, ONE_BIT, ZERO_BIT, ZERO_BIT, ZERO_BIT,
      ZERO_BIT, ONE_BIT, END_MARKER] 0 9 (by decide) (by decide) (by decide) (by decide)).2
    [Char.ofNat 97] (by decide)

/-- C8: encode fails exactly on the empty cover text, with
`CoverTextTooShort`, and that is its only failure mode; every non-empty
cover succeeds for every secret. -/
theorem c8_cover_too_short (c s : List Char) :
    (c = [] → encode c s = .error .CoverTextTooShort) ∧
    (c ≠ [] → ∃ t, encode c s = .ok t) ∧
    (∀ err, encode c s = .error err → c = [] ∧ err = .CoverTextTooShort) := by
  refine ⟨?_, ?_, ?_⟩
  · rintro rfl
    rfl
  · intro h
    rcases c with _ | ⟨c0, rest⟩
    · exact absurd rfl h
    · exact ⟨_, rfl⟩
  · intro err herr
    rcases c with _ | ⟨c0, rest⟩
    · replace herr : Except.error Error.CoverTextTooShort = Except.error err := herr
      injection herr with herr
      exact ⟨rfl, herr.symm⟩
    · exact absurd herr (by simp [encode])

theorem c8_cover_too_short_witness :
    encode [] [] = .error .CoverTextTooShort ∧ ∃ t, encode [Char.ofNat 72] [] = .ok t :=
  ⟨(c8_cover_too_short [] []).1 rfl, (c8_cover_too_short [Char.ofNat 72] []).2.1 (by decide)⟩

/-- C9 (counterexample): the visibility claim fails as stated for a cover
that itself contains a reserved zero-width scalar value: the filter also
strips that cover character. -/
theorem c9_counterexample :
    encode [ZERO_BIT] [] = .ok [ZERO_BIT, START_MARKER, END_MARKER] ∧
    strip_hidden [ZERO_BIT, START_MARKER, END_MARKER] = [] ∧
    ([] : List Char) ≠ [ZERO_BIT] := by
  decide

/-- C9 (amended): for every non-empty cover containing none of the four
reserved scalar values and every secret, `strip_hidden` applied to the
encoded text yields exactly the cover. -/
theorem c9_visibility (c0 : Char) (rest s : List Char)
    (hvis : ∀ ch ∈ c0 :: rest, is_zero_width_char ch = false) (t : List Char)
    (ht : encode (c0 :: rest) s = .ok t) :
    strip_hidden t = c0 :: rest := by
  injection ht with ht
  subst ht
  have hp0 : (!is_zero_width_char c0) = true := by
    rw [hvis c0 (List.mem_cons_self _ _)]
    rfl
  have hpS : (!is_zero_width_char START_MARKER) = false := by decide
  have hpE : (!is_zero_width_char END_MARKER) = false := by decide
  have hrest : rest.filter (fun ch => !is_zero_width_char ch) = rest := by
    apply List.filter_eq_self.2
    intro a ha
    rw [hvis a (List.mem_cons_of_mem _ ha)]
    rfl
  have hB : ((stringBytes s).flatMap byteToBits).filter (fun ch => !is_zero_width_char ch) = [] := by
    apply List.filter_eq_nil_iff.2
    intro a ha
    rcases List.mem_flatMap.1 ha with ⟨b, _, hab⟩
    rcases byteToBits_mem b a hab with rfl | rfl <;> decide
  simp only [strip_hidden, List.cons_append, List.filter_cons, List.filter_append, hp0, hpS, hpE,
    hB, hrest, if_true, if_false, List.nil_append]
  simp

theorem c9_visibility_witness :
    strip_hidden [Char.ofNat 72, START_MARKER, END_MARKER] = [Char.ofNat 72] :=
  c9_visibility (Char.ofNat 72) [] [] (by decide)
    [Char.ofNat 72, START_MARKER, END_MARKER] (by decide)

/-- C10: text prepended before the hidden payload never influences the
result of decode, provided it contains none of the four reserved scalar
values. -/
theorem c10_prefix_transparent (p t : List Char)
    (hp : ∀ ch ∈ p, is_zero_width_char ch = false) :
    decode (p ++ t) = decode t := by
  have hS : START_MARKER ∉ p := fun hm => absurd (hp _ hm) (by decide)
  have hE : END_MARKER ∉ p := fun hm => absurd (hp _ hm) (by decide)
  simp only [decode, findChar_append_right START_MARKER p t hS,
    findChar_append_right END_MARKER p t hE]
  rcases hfS : findChar START_MARKER t with _ | s <;>
    rcases hfE : findChar END_MARKER t with _ | e <;>
      simp only [Option.map_none', Option.map_some']
  by_cases hlt : s < e
  · rw [if_pos (by omega), if_pos hlt]
    have hd : (p ++ t).drop (s + p.length + 1) = t.drop (s + 1) := by
      rw [show s + p.length + 1 = p.length + (s + 1) from by omega, ← List.drop_drop,
        List.drop_left]
    have harith : e + p.length - (s + p.length + 1) = e - (s + 1) := by omega
    rw [hd, harith]
  · rw [if_neg (by omega), if_neg hlt]

theorem c10_prefix_transparent_witness :
    decode ([Char.ofNat 120] ++ [START_MARKER, END_MARKER]) = decode [START_MARKER, END_MARKER] :=
  c10_prefix_transparent [Char.ofNat 120] [START_MARKER, END_MARKER] (by decide)

end WhisperText
